import Mathlib

/-!
# Verification of the BS-Roformer separation model (`models/bs_roformer21.py`)

A shallow embedding of the forward-inference architecture of the
`BSRoformer21a` source-separation model, together with theorems settling
the specification's claims about it.

Conventions:
* Machine floats are modelled as rationals (`ℚ`); external numeric
  primitives of the host engine that compute transcendental functions
  (`torch.rsqrt`, `exp` inside softmax, the rotary sin/cos tables, the
  attention scale 1/sqrt(d)) are passed as explicit function parameters.
* Tensors are modelled either as nested lists (where element counts are
  the substance of a claim) or as structures carrying explicit dimension
  fields plus a total indexing function (where index routing is the
  substance).  Out-of-range reads of an indexing function are junk and
  theorems quantify only over in-range indices.
* `models/fourier.py` (the analysis/synthesis transform) is not part of
  the analysed sources; where a claim's pipeline crosses it, it is
  modelled from the specification and marked as such.
-/

namespace MiniMss

/-! ## RMSNorm (source lines 141-151)

`forward` computes `norm_x = torch.mean(x ** 2, dim=-1, keepdim=True)`
and returns `x * torch.rsqrt(norm_x + self.eps) * self.weight`.
`torch.rsqrt` is an external numeric primitive, passed as the parameter
`rsqrt`; `self.weight` is the learned per-feature scale (initialised to
ones in the source, but arbitrary after training). -/

namespace RMSNorm

/-- Mean of the elementwise squares of a feature vector:
`torch.mean(x ** 2, dim=-1)`. -/
def meanSq (x : List ℚ) : ℚ := (x.map (fun v => v * v)).sum / x.length

/-- `RMSNorm.forward`: the broadcast product
`x * torch.rsqrt(norm_x + eps) * weight` (the normaliser is a scalar per
feature vector, broadcast across features; the weight multiplies
featurewise). -/
def forward (rsqrt : ℚ → ℚ) (eps : ℚ) (weight : List ℚ) (x : List ℚ) : List ℚ :=
  List.zipWith (fun xi wi => xi * rsqrt (meanSq x + eps) * wi) x weight

end RMSNorm

/-! ## Constructor wiring: transformer stack depth (source lines 13-62, 324-337)

`TransformerLayers.__init__` appends, `depth` times, a pair of
`TransformerBlock`s (one for the time axis, one for the frequency axis)
to `self.transformers`.  `BSRoformer21a.__init__` stores the `depth`
argument in `self.depth` but constructs `self.encoder1` with the literal
`depth=12`.  At configuration level a block is characterised by its
`(dim, n_heads)` pair; the two blocks of a pair share `dim` and
`n_heads` but use distinct rotary tables (time vs frequency), recorded
as a tag. -/

/-- Rotary-table axis tag: `rotary_emb_t` vs `rotary_emb_f`. -/
inductive RotAxis | time | freq
deriving DecidableEq, Repr

/-- Construction-level data of one `TransformerBlock(dim, n_heads, rotary_emb)`. -/
structure TBlockCfg where
  dim : ℕ
  n_heads : ℕ
  rot : RotAxis
deriving DecidableEq, Repr

namespace TransformerLayers

/-- `TransformerLayers.__init__`: the list `self.transformers` after the
construction loop `for _ in range(depth): append([block_t, block_f])`. -/
def transformers (dim head_dim n_heads depth : ℕ) : List (TBlockCfg × TBlockCfg) :=
  List.replicate depth (⟨dim, n_heads, RotAxis.time⟩, ⟨dim, n_heads, RotAxis.freq⟩)

end TransformerLayers

namespace BSRoformer21a

/-- `BSRoformer21a.__init__`, line 52-57: `self.encoder1 =
TransformerLayers(dim=self.dim, head_dim=self.head_dim,
n_heads=self.n_heads, depth=12)`.  The call passes the literal `12`,
not the constructor's `depth` argument (which is stored in `self.depth`
and used nowhere else). -/
def encoder1 (n_fft hop_length input_channels depth dim n_heads : ℕ) :
    List (TBlockCfg × TBlockCfg) :=
  TransformerLayers.transformers dim (dim / n_heads) n_heads 12

end BSRoformer21a

/-! ## StftToImage (source lines 154-236)

Value-level embedding.  The mel filter matrix `melbanks` produced by
`librosa.filters.mel` is an external collaborator's output and enters as
a parameter: a list of `mel_bins - 2` rows, each a list of `n_fft//2+1`
nonnegative weights.  The constructor augments it with two synthetic
edge rows, checks the partition-of-unity invariant with `np.allclose`,
and derives per-band nonzero index lists.  The per-band
`nn.Linear(in_dim, out_channels)` compress maps and their
`nn.Linear(out_channels, in_dim)` expand mirrors are modelled as weight
matrix plus bias. -/

/-- A linear layer `nn.Linear`: weight rows (one per output feature)
and a bias vector. -/
structure Linear where
  weight : List (List ℚ)
  bias : List ℚ
deriving DecidableEq

/-- Apply `nn.Linear` along the last axis: `W · v + b`. -/
def Linear.apply (net : Linear) (v : List ℚ) : List ℚ :=
  List.zipWith (fun row b => (List.zipWith (fun w x => w * x) row v).sum + b)
    net.weight net.bias

namespace StftToImage

/-- `np.argmax`: index of the first occurrence of the maximum (0 on an
empty array, as numpy errors there — never hit by the source). -/
def argmaxIdx (xs : List ℚ) : ℕ :=
  (List.range xs.length).foldl
    (fun best i => if xs.getD best 0 < xs.getD i 0 then i else best) 0

/-- `melbank_first`: zeros except weight 1 at bin 0 (source lines 170-171). -/
def melbankFirst (nBins : ℕ) : List ℚ :=
  (List.range nBins).map (fun j => if j = 0 then 1 else 0)

/-- `melbank_last`: from the peak of the last regular mel row onward, the
residual weight `1 - melbanks[-1, idx:]`; zero before the peak
(source lines 173-175). -/
def melbankLast (lastRow : List ℚ) : List ℚ :=
  (List.range lastRow.length).map
    (fun j => if argmaxIdx lastRow ≤ j then 1 - lastRow.getD j 0 else 0)

/-- The augmented bank matrix
`np.concatenate([melbank_first[None], melbanks, melbank_last[None]])`
(source lines 177-179). -/
def augment (melbanks : List (List ℚ)) (nBins : ℕ) : List (List ℚ) :=
  [melbankFirst nBins] ++ melbanks ++ [melbankLast (melbanks.getLastD [])]

/-- `np.sum(melbanks, axis=0)` at column `j`. -/
def colSum (rows : List (List ℚ)) (j : ℕ) : ℚ :=
  (rows.map (fun r => r.getD j 0)).sum

/-- The tolerance of `np.allclose(a, b)` against `b = 1`:
`atol + rtol * |b| = 1e-8 + 1e-5`. -/
def alltol : ℚ := 1 / 100000000 + 1 / 100000

/-- The constructor's invariant check
`assert np.allclose(a=sum_banks, b=1.)` on the augmented matrix
(source lines 181-182). -/
def partitionCheck (melbanks : List (List ℚ)) (nBins : ℕ) : Bool :=
  (List.range nBins).all
    (fun j => |colSum (augment melbanks nBins) j - 1| ≤ alltol)

/-- `self.indexes[f]`: the nonzero positions of row `f`,
`(melbanks[f] != 0).nonzero()[0]` (source line 190). -/
def nonzeroIdx (row : List ℚ) : List ℕ :=
  (List.range row.length).filter (fun j => row.getD j 0 ≠ 0)

/-- Construction-time data of one band: its (augmented) weight row and
its compress / expand linear maps. -/
structure Band where
  row : List ℚ
  net : Linear
  invNet : Linear
deriving DecidableEq

/-- `StftToImage.__init__`: fails (a Python `AssertionError`) when the
augmented banks violate the partition-of-unity check; otherwise yields
one band per augmented row, the linear maps being freshly initialised
parameters (supplied here by `mkNet`/`mkInvNet`, indexed by the band
number).  `nBins` is `melbanks.shape[-1] = n_fft//2+1`. -/
def construct (melbanks : List (List ℚ)) (nBins : ℕ)
    (mkNet mkInvNet : ℕ → Linear) : Except String (List Band) :=
  if partitionCheck melbanks nBins then
    .ok ((augment melbanks nBins).enum.map
      (fun p => ⟨p.2, mkNet p.1, mkInvNet p.1⟩))
  else
    .error "partition of unity violated"

/-- One band's contribution inside `transform` (source lines 204-215),
for one `(batch, time)` slice `xs` (one list of bin values per input
channel): gather the band's nonzero bins, multiply by the band weights
(`stft_bank * bank`), flatten channel-major (`'b c t q -> b t (c q)'`),
and apply the band's compress map. -/
def transformBand (bd : Band) (xs : List (List ℚ)) : List ℚ :=
  bd.net.apply
    ((xs.map (fun ch =>
      (nonzeroIdx bd.row).map (fun j => ch.getD j 0 * bd.row.getD j 0))).flatten)

/-- `transform` on one `(batch, time)` slice: the stacked per-band
embeddings (`torch.stack(vs, dim=2)`).  All tensor operations in
`transform` act pointwise in the batch and time axes, so the full
`(b, c, t, bins) → (b, d, t, f)` map is this slice map applied at every
`(batch, time)` pair. -/
def transformSlice (bands : List Band) (xs : List (List ℚ)) : List (List ℚ) :=
  bands.map (fun bd => transformBand bd xs)

/-- Add `a` at position `j` of `l` (`y[..., idxes] += v` for one index). -/
def addAt (l : List ℚ) (j : ℕ) (a : ℚ) : List ℚ :=
  l.set j (l.getD j 0 + a)

/-- Scatter-accumulate a list of (position, value) pairs into a row:
`y[..., idxes] += v` for one channel. -/
def scatterAdd (l : List ℚ) (ps : List (ℕ × ℚ)) : List ℚ :=
  ps.foldl (fun acc p => addAt acc p.1 p.2) l

/-- The channel-`c` chunk of an expanded band vector: the rearrangement
`'b t (c q) -> b c t q'` is channel-major, so channel `c` owns entries
`c*q` to `c*q + q - 1`. -/
def chunkOf (v : List ℚ) (q c : ℕ) : List ℚ := (v.drop (c * q)).take q

/-- One band's contribution inside `inverse_transform` (source lines
227-234), for one `(batch, time)` slice: apply the band's expand map to
the band's embedding `v`, split the result channel-major into chunks of
length `len(idxes)` (`'b t (c q) -> b c t q'`), and scatter-accumulate
each chunk into its channel row of the accumulator `y`. -/
def inverseBand (bd : Band) (v : List ℚ) (y : List (List ℚ)) : List (List ℚ) :=
  (y.enum).map (fun p =>
    scatterAdd p.2
      ((nonzeroIdx bd.row).zip
        (chunkOf (bd.invNet.apply v) (nonzeroIdx bd.row).length p.1)))

/-- `inverse_transform` on one `(batch, time)` slice: start from the
zero-initialised `(in_channels, n_fft//2+1)` slice of `y` and fold the
per-band scatter-accumulation over all bands in order.  `vs` is the
per-band list of embeddings (`x[..., f]` for each band `f`).  As with
`transform`, every tensor operation acts pointwise in batch and time. -/
def inverseSlice (bands : List Band) (inChannels nBins : ℕ)
    (vs : List (List ℚ)) : List (List ℚ) :=
  (List.zip bands vs).foldl (fun y p => inverseBand p.1 p.2 y)
    (List.replicate inChannels (List.replicate nBins (0 : ℚ)))

/-- The full `transform`, with the 4D tensor `(b, c, t, bins)`
represented as a function from `(batch, time)` indices to
channel-by-bin slices; the result represents `(b, d, t, f)` as a
function from `(batch, time)` to band-by-feature slices. -/
def transform (bands : List Band) (x : ℕ → ℕ → List (List ℚ)) :
    ℕ → ℕ → List (List ℚ) :=
  fun b t => transformSlice bands (x b t)

/-- The full `inverse_transform` in the same representation. -/
def inverse_transform (bands : List Band) (inChannels nBins : ℕ)
    (x : ℕ → ℕ → List (List ℚ)) : ℕ → ℕ → List (List ℚ) :=
  fun b t => inverseSlice bands inChannels nBins (x b t)

/-- The total amount that band `bd`, holding embedding `v`, adds to
channel `c` at frequency bin `j` during `inverse_transform`: the sum of
those entries of the channel-`c` chunk of the expanded vector whose
scatter position equals `j` (the band's index list is duplicate-free,
so at most one entry contributes). -/
def bandContrib (bd : Band) (v : List ℚ) (c j : ℕ) : ℚ :=
  ((((nonzeroIdx bd.row).zip
      (chunkOf (bd.invNet.apply v) (nonzeroIdx bd.row).length c)).filter
    (fun pr => pr.1 == j)).map Prod.snd).sum

end StftToImage

/-- The identity `nn.Linear` on `n` features: identity weight matrix,
zero bias. -/
def Linear.idn (n : ℕ) : Linear :=
  ⟨(List.range n).map (fun i => (List.range n).map (fun j => if i = j then 1 else 0)),
   List.replicate n 0⟩

/-! ## Patch embedding (source lines 116-138) and the alternating-axis
transformer stack (source lines 254-359)

Rank-3 and rank-4 tensors are modelled as explicit dimension fields
plus a total indexing function; reads outside the recorded extent are
junk and theorems quantify over in-range indices only.  Weight matrices
of the `nn.Linear` layers appearing here are modelled as index
functions. -/

/-- A rank-4 tensor, axes `(batch, width/channel, time, freq)`. -/
structure T4 where
  nb : ℕ
  nd : ℕ
  nt : ℕ
  nf : ℕ
  data : ℕ → ℕ → ℕ → ℕ → ℚ

/-- A rank-3 tensor, axes `(rows, seq, width)` — the only shape the
attention blocks operate on. -/
structure T3 where
  rows : ℕ
  seq : ℕ
  width : ℕ
  data : ℕ → ℕ → ℕ → ℚ

/-- A rank-4 head tensor, axes `(batch, head, seq, head_dim)`. -/
structure H4 where
  nb : ℕ
  nh : ℕ
  nt : ℕ
  nd : ℕ
  data : ℕ → ℕ → ℕ → ℕ → ℚ

namespace BSRoformer21a

/-- The time padding inside `patchify` (source lines 119-121):
`pad_len = int(np.ceil(T / 4)) * 4 - T` and
`F.pad(x, pad=(0, 0, 0, pad_len))` append `pad_len` zero frames at the
end of the time axis.  The patch time extent is `self.patch_size[0] = 4`. -/
def padTime (x : T4) : T4 :=
  ⟨x.nb, x.nd, ((x.nt + 3) / 4) * 4, x.nf,
   fun b d t f => if t < x.nt then x.data b d t f else 0⟩

/-- `patchify` (source lines 116-128): pad time, tile into 4×4 patches
(`'b d (t1 t2) (f1 f2) -> b t1 f1 (t2 f2 d)'`), apply the shared
`fc_in = nn.Linear(64 * 16, dim)` along the last axis, and move the
feature axis forward (`'b t f d -> b d t f'`).  `W`/`bias` are the
`fc_in` parameters and `dimOut` its `out_features`; its `in_features`
is the tile width `16 * x.nd`. -/
def patchify (W : ℕ → ℕ → ℚ) (bias : ℕ → ℚ) (dimOut : ℕ) (x : T4) : T4 :=
  ⟨x.nb, dimOut, ((x.nt + 3) / 4) * 4 / 4, x.nf / 4,
   fun b o t1 f1 =>
     (∑ i ∈ Finset.range (16 * x.nd),
       W o i *
         (padTime x).data b (i % x.nd) (t1 * 4 + i / (4 * x.nd))
           (f1 * 4 + i % (4 * x.nd) / x.nd)) + bias o⟩

/-- `unpatchify` (source lines 130-138): move features last
(`'b d t f -> b t f d'`), apply `fc_out = nn.Linear(dim, 64 * 16)`,
untile (`'b t1 f1 (t2 f2 d) -> b d (t1 t2) (f1 f2)'`, channel width
`outF / 16`), and truncate the time axis to `time_steps`
(`x[:, :, 0 : time_steps, :]`). -/
def unpatchify (W : ℕ → ℕ → ℚ) (bias : ℕ → ℚ) (outF : ℕ) (x : T4)
    (time_steps : ℕ) : T4 :=
  ⟨x.nb, outF / 16, min time_steps (x.nt * 4), x.nf * 4,
   fun b d t f =>
     (∑ i ∈ Finset.range x.nd,
       W ((t % 4 * 4 + f % 4) * (outF / 16) + d) i * x.data b i (t / 4) (f / 4))
       + bias ((t % 4 * 4 + f % 4) * (outF / 16) + d)⟩

end BSRoformer21a

/-! ### Attention (source lines 254-299)

`torch.nn.functional.scaled_dot_product_attention` is called with
`attn_mask=None, dropout_p=0, is_causal=False`: the softmax for every
query position runs over the whole key sequence and nothing is dropped.
The `exp` inside that softmax and the scale `1/sqrt(head_dim)` are
external numeric primitives (`expf`, `scale`); the rotary rotation of
`rotary_embedding_torch` is an external collaborator, modelled from the
spec as a position-indexed map on head vectors (`rot`). -/

/-- The configuration and frozen parameters of one `Attention` module:
`dim`, `n_heads`, the fused `c_attn = nn.Linear(dim, 3*dim, bias=False)`
weight, the output `c_proj = nn.Linear(dim, dim, bias=False)` weight,
the rotary table, and the external softmax/scale primitives. -/
structure AttentionP where
  dim : ℕ
  n_heads : ℕ
  wAttn : ℕ → ℕ → ℚ
  wProj : ℕ → ℕ → ℚ
  rot : ℕ → (ℕ → ℚ) → ℕ → ℚ
  expf : ℚ → ℚ
  scale : ℚ

namespace Attention

/-- `nn.Linear(inF, outF, bias=False)` along the last axis of a rank-3
tensor; fails (a shape error from the underlying matmul) unless the
tensor's width equals `in_features`. -/
def linNoBias (W : ℕ → ℕ → ℚ) (inF outF : ℕ) (x : T3) : Except String T3 :=
  if x.width = inF then
    .ok ⟨x.rows, x.seq, outF,
      fun r t o => ∑ i ∈ Finset.range inF, W o i * x.data r t i⟩
  else .error "linear features mismatch"

/-- `rearrange(y, 'b t (r h d) -> r b h t d', r=3, h=n_heads)`: einops
infers `d = width / (3*h)` and fails unless the split is exact.  Returns
the `(q, k, v)` triple; the flat index of `(r, h, d)` is
`(r * n_heads + h) * head_dim + d`. -/
def splitHeads (H : ℕ) (y : T3) : Except String (H4 × H4 × H4) :=
  if 0 < H ∧ 3 * H ∣ y.width then
    .ok (⟨y.rows, H, y.seq, y.width / (3 * H),
           fun b h t d => y.data b t (h * (y.width / (3 * H)) + d)⟩,
         ⟨y.rows, H, y.seq, y.width / (3 * H),
           fun b h t d => y.data b t ((H + h) * (y.width / (3 * H)) + d)⟩,
         ⟨y.rows, H, y.seq, y.width / (3 * H),
           fun b h t d => y.data b t ((2 * H + h) * (y.width / (3 * H)) + d)⟩)
  else .error "head split mismatch"

/-- `self.rotary_emb.rotate_queries_or_keys` — modelled from the spec:
a deterministic position-dependent rotation applied to each head vector
along the last two axes; shape-preserving. -/
def rotate (rot : ℕ → (ℕ → ℚ) → ℕ → ℚ) (x : H4) : H4 :=
  ⟨x.nb, x.nh, x.nt, x.nd, fun b h t d => rot t (fun i => x.data b h t i) d⟩

/-- `scaled_dot_product_attention(q, k, v, attn_mask=None, dropout_p=0,
is_causal=False)`: softmax over the scaled q·k scores of the **whole**
key range (no causal mask), no dropout, then the weighted sum of
values. -/
def sdpa (expf : ℚ → ℚ) (scale : ℚ) (q k v : H4) : H4 :=
  ⟨q.nb, q.nh, q.nt, q.nd,
   fun b h i d =>
     ∑ j ∈ Finset.range q.nt,
       (expf (scale * ∑ c ∈ Finset.range q.nd, q.data b h i c * k.data b h j c) /
        ∑ j2 ∈ Finset.range q.nt,
          expf (scale * ∑ c ∈ Finset.range q.nd, q.data b h i c * k.data b h j2 c)) *
         v.data b h j d⟩

/-- `rearrange(y, 'b h t d -> b t (h d)')`: concatenate the heads. -/
def mergeHeads (y : H4) : T3 :=
  ⟨y.nb, y.nt, y.nh * y.nd, fun b t c => y.data b (c / y.nd) t (c % y.nd)⟩

/-- `Attention.forward` (source lines 271-299). -/
def forward (p : AttentionP) (x : T3) : Except String T3 := do
  let y ← linNoBias p.wAttn p.dim (3 * p.dim) x
  let (q, k, v) ← splitHeads p.n_heads y
  let q := rotate p.rot q
  let k := rotate p.rot k
  let y := sdpa p.expf p.scale q k v
  linNoBias p.wProj p.dim p.dim (mergeHeads y)

end Attention

/-! ### TransformerBlock and TransformerLayers (source lines 302-359)

For the claims about the stack's dataflow the two sub-modules of a
block (`self.att`, `self.mlp`) enter as abstract maps on a
`(seq, width)` slice; the host engine applies every module
independently per leading batch row, so batched application is rowwise
application.  The RMS normalisations are embedded concretely. -/

/-- A map on one `(seq, width)` slice — the action of a sub-module on
one batch row. -/
def SliceMap : Type := (ℕ → ℕ → ℚ) → ℕ → ℕ → ℚ

/-- `RMSNorm.forward` on a `(seq, width)` slice: the mean square is
taken along the last (width) axis per position, then broadcast. -/
def rmsnormSlice (rsqrt : ℚ → ℚ) (eps : ℚ) (w : ℕ → ℚ) (width : ℕ)
    (s : ℕ → ℕ → ℚ) : ℕ → ℕ → ℚ :=
  fun t i =>
    s t i * rsqrt ((∑ j ∈ Finset.range width, s t j * s t j) / width + eps) * w i

/-- The parameters of one `TransformerBlock`: the attention and MLP
sub-modules as slice maps and the two RMSNorm weight vectors. -/
structure BlockP where
  attF : SliceMap
  mlpF : SliceMap
  wa : ℕ → ℚ
  wf : ℕ → ℚ

/-- `TransformerBlock.forward` (source lines 315-321):
`x = x + self.att(self.att_norm(x))` then
`x = x + self.mlp(self.ffn_norm(x))`, on one slice. -/
def blockForward (rsqrt : ℚ → ℚ) (eps : ℚ) (width : ℕ) (p : BlockP) : SliceMap :=
  fun s =>
    let y := fun t i => s t i + p.attF (rmsnormSlice rsqrt eps p.wa width s) t i
    fun t i => y t i + p.mlpF (rmsnormSlice rsqrt eps p.wf width y) t i

namespace TransformerLayers

/-- `rearrange(x, 'b d t f -> (b f) t d')`: fold frequency into the
batch axis; row `r` of the result is the pair `(r / nf, r % nf)`. -/
def rearrTime (x : T4) : T3 :=
  ⟨x.nb * x.nf, x.nt, x.nd, fun r i c => x.data (r / x.nf) c i (r % x.nf)⟩

/-- `rearrange(x, '(b f) t d -> (b t) f d', b=_B)`: refold so that time
joins the batch axis and frequency becomes the sequence; einops infers
`f = rows / b` and `t = seq`. -/
def rearrFreq (bB : ℕ) (x : T3) : T3 :=
  ⟨bB * x.seq, x.rows / bB, x.width,
   fun r i c => x.data ((r / x.seq) * (x.rows / bB) + i) (r % x.seq) c⟩

/-- `rearrange(x, '(b t) f d -> b d t f', b=_B)`: back to the 4D grid;
einops infers `t = rows / b`. -/
def rearrBack (bB : ℕ) (x : T3) : T4 :=
  ⟨bB, x.width, x.rows / bB, x.seq,
   fun b d t f => x.data (b * (x.rows / bB) + t) f d⟩

/-- Batched module application: the engine applies a block to each
leading batch row independently. -/
def applyRows (blk : SliceMap) (x : T3) : T3 :=
  ⟨x.rows, x.seq, x.width, fun r => blk (x.data r)⟩

/-- One iteration of the loop in `TransformerLayers.forward` (source
lines 350-358): time-attend on the frequency-folded view, then
freq-attend on the time-folded view, then back to the grid. -/
def stage (rsqrt : ℚ → ℚ) (eps : ℚ) (bB : ℕ) (pq : BlockP × BlockP)
    (x : T4) : T4 :=
  let x1 := applyRows (blockForward rsqrt eps (rearrTime x).width pq.1)
    (rearrTime x)
  let x2 := applyRows (blockForward rsqrt eps (rearrFreq bB x1).width pq.2)
    (rearrFreq bB x1)
  rearrBack bB x2

/-- `TransformerLayers.forward` (source lines 339-359): `_B` is read
from the input once; the loop body runs for each block pair. -/
def forwardT (rsqrt : ℚ → ℚ) (eps : ℚ) (layers : List (BlockP × BlockP))
    (x : T4) : T4 :=
  layers.foldl (fun acc pq => stage rsqrt eps x.nb pq acc) x

/-- Spec-side time-attend: the block runs on the time sequence at each
fixed `(batch, freq)` position. -/
def timeAttendS (blk : SliceMap) (x : T4) : T4 :=
  ⟨x.nb, x.nd, x.nt, x.nf,
   fun b d t f => blk (fun i c => x.data b c i f) t d⟩

/-- Spec-side freq-attend: the block runs on the frequency sequence at
each fixed `(batch, time)` position. -/
def freqAttendS (blk : SliceMap) (x : T4) : T4 :=
  ⟨x.nb, x.nd, x.nt, x.nf,
   fun b d t f => blk (fun i c => x.data b c t i) f d⟩

/-- Spec-side stage: time-attend first, then freq-attend, each block
being the two residual sub-layers. -/
def stageS (rsqrt : ℚ → ℚ) (eps : ℚ) (pq : BlockP × BlockP) (x : T4) : T4 :=
  freqAttendS (blockForward rsqrt eps x.nd pq.2)
    (timeAttendS (blockForward rsqrt eps x.nd pq.1) x)

/-- Spec-side stack: the stages in order. -/
def forwardS (rsqrt : ℚ → ℚ) (eps : ℚ) (layers : List (BlockP × BlockP))
    (x : T4) : T4 :=
  layers.foldl (fun acc pq => stageS rsqrt eps pq acc) x

/-- A slice map respects the `(seq, width)` extent when its in-range
outputs depend only on in-range inputs — true of every tensor module,
which sees only the actual tensor extent. -/
def RespectsSlice (seq width : ℕ) (F : SliceMap) : Prop :=
  ∀ s s2 : ℕ → ℕ → ℚ, (∀ i < seq, ∀ j < width, s i j = s2 i j) →
    ∀ i < seq, ∀ j < width, F s i j = F s2 i j

end TransformerLayers

/-! ## The full forward pass at the shape level (source lines 64-114)

`BSRoformer21a.forward` performs no input validation of its own: every
error it can raise is a shape error from a tensor primitive, and no
primitive in the pipeline raises on non-finite values.  To settle the
error-handling claim the pipeline is embedded at the level that decides
it: each step carries the exact shape rule of the underlying operation
(the condition under which it raises, and the output extents), plus a
non-finiteness taint bit that every value-mixing operation propagates —
`NaN` in any input tensor entry makes `NaN` entries in the output of a
windowed Fourier transform, a linear layer, a softmax or an
elementwise product, and none of these operations raises on it. -/

namespace ShapeTaint

/-- A tensor abstracted to its shape and a non-finiteness taint bit. -/
structure TD where
  dims : List ℕ
  nan : Bool
deriving DecidableEq, Repr

/-- Modelled from the spec: the external analysis transform
`stft(waveform) -> complex_spectrogram`, `(b, c, s) -> (b, c, t, f)`
with `f = n_fft//2 + 1` and `t = s // hop_length + 1` (centred
framing); linear in the waveform, so taint passes through. -/
def stftS (n_fft hop : ℕ) (w : TD) : Except String TD :=
  match w.dims with
  | [b, c, s] => .ok ⟨[b, c, s / hop + 1, n_fft / 2 + 1], w.nan⟩
  | _ => .error "stft expects a 3D waveform"

/-- `torch.view_as_real`: `(b, c, t, f) -> (b, c, t, f, 2)`. -/
def viewAsRealS (x : TD) : Except String TD :=
  match x.dims with
  | [b, c, t, f] => .ok ⟨[b, c, t, f, 2], x.nan⟩
  | _ => .error "view_as_real expects 4D complex"

/-- `rearrange(x, 'b c t f z -> b (c z) t f')`. -/
def stackRealS (x : TD) : Except String TD :=
  match x.dims with
  | [b, c, t, f, z] => .ok ⟨[b, c * z, t, f], x.nan⟩
  | _ => .error "stack expects 5D"

/-- `StftToImage.transform` (source lines 200-220) at shape level.
`bandIdx` is the constructor's `self.indexes`; per band the gather
needs its indices inside the bin range and the band's
`nn.Linear(len(idxes) * in_channels, out_channels)` needs the
flattened width `c * q` to match `in_channels * q`. -/
def transformS (inCh outCh : ℕ) (bandIdx : List (List ℕ)) (x : TD) :
    Except String TD :=
  match x.dims with
  | [b, c, t, fq] =>
    if bandIdx.all (fun idxes => idxes.all (fun j => j < fq)) then
      if bandIdx.all (fun idxes => c * idxes.length = inCh * idxes.length) then
        .ok ⟨[b, outCh, t, bandIdx.length], x.nan⟩
      else .error "band projection features mismatch"
    else .error "band gather index out of range"
  | _ => .error "transform expects 4D"

/-- `patchify` (source lines 116-128) at shape level: zero time-padding
raises nothing; the tiling needs `4 | f`; `fc_in` needs the tile width
`16 * d` to equal its `in_features`. -/
def patchifyS (fcInF dim : ℕ) (x : TD) : Except String TD :=
  match x.dims with
  | [b, d, t, f] =>
    if f % 4 = 0 then
      if 16 * d = fcInF then
        .ok ⟨[b, dim, (t + 3) / 4, f / 4], x.nan⟩
      else .error "fc_in features mismatch"
    else .error "freq tiling mismatch"
  | _ => .error "patchify expects 4D"

/-- One `TransformerBlock` pass at shape level: the fused `c_attn`
linear needs width `dim`; the einops head split needs
`3*dim` divisible by `3*n_heads`; attention, MLP and the residual adds
preserve the shape and propagate taint. -/
def blockS (dim n_heads : ℕ) (x : TD) : Except String TD :=
  match x.dims with
  | [r, t, c] =>
    if c = dim then
      if (3 * dim) % (3 * n_heads) = 0 then .ok ⟨[r, t, c], x.nan⟩
      else .error "head split mismatch"
    else .error "c_attn features mismatch"
  | _ => .error "block expects 3D"

/-- One loop iteration of `TransformerLayers.forward` (source lines
350-358) at shape level: the three einops rearrangements (the folded
axes must decompose exactly by `_B`) around the two block passes. -/
def stageShapeS (bB dim n_heads : ℕ) (x : TD) : Except String TD := do
  let x1 ←
    match x.dims with
    | [b, d, t, f] => .ok (⟨[b * f, t, d], x.nan⟩ : TD)
    | _ => .error "stage expects 4D"
  let x2 ← blockS dim n_heads x1
  let x3 ←
    match x2.dims with
    | [r, t, d] =>
      if r % bB = 0 then .ok (⟨[bB * t, r / bB, d], x2.nan⟩ : TD)
      else .error "batch refold mismatch"
    | _ => .error "refold expects 3D"
  let x4 ← blockS dim n_heads x3
  match x4.dims with
  | [r, f, d] =>
    if r % bB = 0 then .ok (⟨[bB, d, r / bB, f], x4.nan⟩ : TD)
    else .error "batch unfold mismatch"
  | _ => .error "unfold expects 3D"

/-- `TransformerLayers.forward` at shape level: `_B` from the input,
then `depth` stages. -/
def encoderS (dim n_heads depth : ℕ) (x : TD) : Except String TD := do
  let bB ←
    match x.dims with
    | b :: _ => .ok b
    | _ => .error "encoder expects a batch axis"
  (List.range depth).foldlM (fun acc _ => stageShapeS bB dim n_heads acc) x

/-- `unpatchify` (source lines 130-138) at shape level: `fc_out` needs
width `dim`; the untile splits `fc_out`'s `out_features` as
`(4, 4, outF/16)`; the final slice truncates time to `time_steps`. -/
def unpatchifyS (dim fcOutF time_steps : ℕ) (x : TD) : Except String TD :=
  match x.dims with
  | [b, d, t, f] =>
    if d = dim then
      if fcOutF % 16 = 0 then
        .ok ⟨[b, fcOutF / 16, min time_steps (t * 4), f * 4], x.nan⟩
      else .error "fc_out untile mismatch"
    else .error "fc_out features mismatch"
  | _ => .error "unpatchify expects 4D"

/-- `StftToImage.inverse_transform` (source lines 222-236) at shape
level: the band loop reads `x[..., f]` for every `f < mel_bins`; each
band's expand linear needs width `out_channels`; the unflatten
`rearrange(v, 'b t (c q) -> b c t q', q=len(idxes))` must infer `c` as
`width // q`, which raises for a band with an empty index list
(`q = 0`); and the scatter needs every index inside the output bin
range `n_fft//2 + 1`. -/
def inverseS (inCh outCh nBins : ℕ) (bandIdx : List (List ℕ)) (x : TD) :
    Except String TD :=
  match x.dims with
  | [b, d, t, f] =>
    if bandIdx.length ≤ f then
      if d = outCh then
        if bandIdx.all (fun idxes => 0 < idxes.length) then
          if bandIdx.all (fun idxes => idxes.all (fun j => j < nBins)) then
            .ok ⟨[b, inCh, t, nBins], x.nan⟩
          else .error "scatter index out of range"
        else .error "band unflatten cannot infer channels"
      else .error "expand features mismatch"
    else .error "band read out of range"
  | _ => .error "inverse expects 4D"

/-- `rearrange(x, 'b (c z) t f -> b c t f z', c=input_channels)`:
einops needs the stacked channel axis to split exactly as
`input_channels * 2`. -/
def unstackRealS (inputChannels : ℕ) (x : TD) : Except String TD :=
  match x.dims with
  | [b, cz, t, f] =>
    if cz = inputChannels * 2 then .ok ⟨[b, inputChannels, t, f, 2], x.nan⟩
    else .error "channel unstack mismatch"
  | _ => .error "unstack expects 4D"

/-- `torch.view_as_complex`: drops the trailing real/imaginary axis,
which must have extent 2. -/
def viewAsComplexS (x : TD) : Except String TD :=
  match x.dims with
  | [b, c, t, f, z] =>
    if z = 2 then .ok ⟨[b, c, t, f], x.nan⟩
    else .error "view_as_complex expects a trailing 2"
  | _ => .error "view_as_complex expects 5D"

/-- `mask * complex_sp`: elementwise product, shapes must agree;
`NaN` in either factor survives the product. -/
def maskMulS (spec x : TD) : Except String TD :=
  if x.dims = spec.dims then .ok ⟨x.dims, x.nan || spec.nan⟩
  else .error "mask shape mismatch"

/-- Modelled from the spec: the external synthesis transform
`istft(complex_spectrogram) -> waveform`, the framing inverse of
`stftS`; linear, so taint passes through. -/
def istftS (hop : ℕ) (x : TD) : Except String TD :=
  match x.dims with
  | [b, c, t, _] => .ok ⟨[b, c, (t - 1) * hop], x.nan⟩
  | _ => .error "istft expects 4D"

/-- `BSRoformer21a.forward` (source lines 64-114) at shape level, for a
model constructed with the given `n_fft`, `hop_length`,
`input_channels` and band table.  The constructor's fixed values are
`mel_bins = 256` (the length of `bandIdx`), `out_channels = 64`,
`patch_size = (4, 4)`, `dim`, `n_heads`; `fc_in : 64*16 -> dim`,
`fc_out : dim -> 64*16`. -/
def forward (n_fft hop inputChannels dim n_heads : ℕ)
    (bandIdx : List (List ℕ)) (w : TD) : Except String TD := do
  let complexSp ← stftS n_fft hop w
  let timeSteps ←
    match complexSp.dims with
    | [_, _, t, _] => .ok t
    | _ => .error "unreachable"
  let x ← viewAsRealS complexSp
  let x ← stackRealS x
  let x ← transformS (inputChannels * 2) 64 bandIdx x
  let x ← patchifyS (64 * 16) dim x
  let x ← encoderS dim n_heads 12 x
  let x ← unpatchifyS dim (64 * 16) timeSteps x
  let x ← inverseS (inputChannels * 2) 64 (n_fft / 2 + 1) bandIdx x
  let x ← unstackRealS inputChannels x
  let mask ← viewAsComplexS x
  let sep ← maskMulS complexSp mask
  istftS hop sep

end ShapeTaint

/-! ### A concrete constructed model instance

The mel filter matrix is the external collaborator's input; the spec
constrains it to be a nonnegative `(mel_bins - 2) × (n_fft//2 + 1)`
matrix whose augmented bands form a partition of unity.  The instance
below satisfies all of that for `n_fft = 8` (5 bins) and the fixed
`mel_bins = 256` (254 regular rows): rows 0..252 are
`[0, 1/506, 0, 0, 0]` and row 253 is `[0, 1/2, 1, 1/2, 0]`.  The
synthetic first band isolates bin 0; the last regular row peaks first
at bin 2, so the synthetic last band becomes `[0, 0, 0, 1/2, 1]`.
Every bin's augmented weights sum to exactly 1
(`253/506 + 1/2 = 1` at bin 1, `1/2 + 1/2 = 1` at bin 3), every band's
nonzero index list is nonempty, and `StftToImage.__init__` accepts the
table. -/

/-- A valid external mel filter matrix for `n_fft = 8`, `mel_bins = 256`,
with every augmented band nonempty. -/
def melbanksEx : List (List ℚ) :=
  List.replicate 253 [0, 1 / 506, 0, 0, 0] ++ [[0, 1 / 2, 1, 1 / 2, 0]]

/-- The per-band nonzero index lists (`self.indexes`) the constructor
derives from `melbanksEx`. -/
def bandIdxEx : List (List ℕ) :=
  (StftToImage.augment melbanksEx 5).map StftToImage.nonzeroIdx

/-- The shape-level forward pass of the model
`BSRoformer21a(n_fft=8, hop_length=2)` (all other configuration at its
source defaults: `input_channels=2`, `dim=384`, `n_heads=12`),
constructed over `melbanksEx`. -/
def forwardEx (w : ShapeTaint.TD) : Except String ShapeTaint.TD :=
  ShapeTaint.forward 8 2 2 384 12 bandIdxEx w

deriving instance DecidableEq for Except

/-- Valid-extent agreement of two rank-4 tensors: equal recorded
dimensions and equal entries at every in-range index. -/
def T4Agree (x y : T4) : Prop :=
  x.nb = y.nb ∧ x.nd = y.nd ∧ x.nt = y.nt ∧ x.nf = y.nf ∧
    ∀ b < x.nb, ∀ d < x.nd, ∀ t < x.nt, ∀ f < x.nf,
      x.data b d t f = y.data b d t f

/-! # Theorems -/

/-- **C1** — the claim says the `depth` configuration option determines
the number of paired transformer stages of the constructed model.
`TransformerLayers` itself does build one `(time, freq)` block pair per
depth unit, but `BSRoformer21a.__init__` passes the literal `12` to it
(line 56), ignoring its own `depth` argument: a model configured with
`depth = 3` still builds 12 pairs. -/
theorem c1_depth_ignored :
    (TransformerLayers.transformers 384 32 12 3).length = 3 ∧
    (BSRoformer21a.encoder1 2048 441 2 3 384 12).length = 12 ∧
    (BSRoformer21a.encoder1 2048 441 2 3 384 12).length ≠ 3 := by
  refine ⟨rfl, rfl, ?_⟩
  decide

/-- Helper: the constructor's `np.allclose` check holds exactly when
every bin's augmented column sum is within tolerance of 1. -/
theorem partitionCheck_iff (m : List (List ℚ)) (nBins : ℕ) :
    StftToImage.partitionCheck m nBins = true ↔
      ∀ j < nBins,
        |StftToImage.colSum (StftToImage.augment m nBins) j - 1| ≤
          StftToImage.alltol := by
  unfold StftToImage.partitionCheck
  rw [List.all_eq_true]
  constructor
  · intro h j hj
    have := h j (List.mem_range.mpr hj)
    simpa using this
  · intro h j hj
    simpa using h j (List.mem_range.mp hj)

/-- **C3** — at construction, after the two synthetic edge bands are
added, `StftToImage.__init__` succeeds exactly when the augmented band
weights at every frequency bin sum to 1 within the `np.allclose`
tolerance; any table violating the partition-of-unity invariant makes
construction abort. -/
theorem c3_partition_of_unity (m : List (List ℚ)) (nBins : ℕ)
    (mkNet mkInvNet : ℕ → Linear) :
    (StftToImage.construct m nBins mkNet mkInvNet).isOk = true ↔
      ∀ j < nBins,
        |StftToImage.colSum (StftToImage.augment m nBins) j - 1| ≤
          StftToImage.alltol := by
  rw [← partitionCheck_iff]
  unfold StftToImage.construct
  by_cases h : StftToImage.partitionCheck m nBins
  · simp [h, Except.isOk, Except.toBool]
  · simp [h, Except.isOk, Except.toBool]

/-- **C7** — `RMSNorm.forward` returns, featurewise,
`x[i] * rsqrt(mean(x²) + eps) * weight[i]`: the whole feature vector is
scaled by the reciprocal square root of its mean squared value plus
`eps`, then multiplied by the learned per-feature scale; there is no
mean-centering and no additive bias term. -/
theorem c7_rmsnorm_formula (rsqrt : ℚ → ℚ) (eps : ℚ) (w x : List ℚ)
    (hlen : w.length = x.length) (i : ℕ) (hi : i < x.length) :
    (RMSNorm.forward rsqrt eps w x).length = x.length ∧
    (RMSNorm.forward rsqrt eps w x).getD i 0 =
      x.getD i 0 * rsqrt ((x.map (fun v => v * v)).sum / x.length + eps) *
        w.getD i 0 := by
  have hlen2 : (RMSNorm.forward rsqrt eps w x).length = x.length := by
    simp [RMSNorm.forward, hlen]
  refine ⟨hlen2, ?_⟩
  rw [List.getD_eq_getElem _ _ (by rw [hlen2]; exact hi),
      List.getD_eq_getElem _ _ hi, List.getD_eq_getElem _ _ (by rw [hlen]; exact hi)]
  simp [RMSNorm.forward, RMSNorm.meanSq]

/-- Witness for C7 at `rsqrt = id`, `eps = 0`, `weight = [2]`,
`x = [3]`, feature 0. -/
theorem c7_rmsnorm_formula_witness :
    ([(2 : ℚ)].length = [(3 : ℚ)].length ∧ 0 < [(3 : ℚ)].length) ∧
    ((RMSNorm.forward (fun q => q) 0 [2] [3]).length = [(3 : ℚ)].length ∧
     (RMSNorm.forward (fun q => q) 0 [2] [3]).getD 0 0 =
       [(3 : ℚ)].getD 0 0 *
         (fun q => q) (([(3 : ℚ)].map (fun v => v * v)).sum / [(3 : ℚ)].length + 0) *
         [(2 : ℚ)].getD 0 0) :=
  ⟨⟨rfl, by decide⟩, c7_rmsnorm_formula (fun q => q) 0 [2] [3] rfl 0 (by decide)⟩

/-- **C4** — `patchify` zero-pads only the time axis, up to the next
multiple of the patch time extent 4 (13 → 16), and
`unpatchify(patchify(x), T)` truncates the time axis back to exactly
the original `T`; the frequency axis is never padded (the pad step
leaves it untouched, and the 4-tiling divides it exactly). -/
theorem c4_patch_pad_roundtrip (W W2 : ℕ → ℕ → ℚ) (bias bias2 : ℕ → ℚ)
    (dim : ℕ) (x : T4) (hf : 4 ∣ x.nf) :
    ((BSRoformer21a.padTime x).nt = ((x.nt + 3) / 4) * 4 ∧
      4 ∣ (BSRoformer21a.padTime x).nt ∧
      x.nt ≤ (BSRoformer21a.padTime x).nt ∧
      (BSRoformer21a.padTime x).nf = x.nf) ∧
    (∀ b d t f, x.nt ≤ t → (BSRoformer21a.padTime x).data b d t f = 0) ∧
    ((BSRoformer21a.unpatchify W2 bias2 (16 * x.nd)
        (BSRoformer21a.patchify W bias dim x) x.nt).nb = x.nb ∧
     (BSRoformer21a.unpatchify W2 bias2 (16 * x.nd)
        (BSRoformer21a.patchify W bias dim x) x.nt).nd = x.nd ∧
     (BSRoformer21a.unpatchify W2 bias2 (16 * x.nd)
        (BSRoformer21a.patchify W bias dim x) x.nt).nt = x.nt ∧
     (BSRoformer21a.unpatchify W2 bias2 (16 * x.nd)
        (BSRoformer21a.patchify W bias dim x) x.nt).nf = x.nf) := by
  have hpt : (BSRoformer21a.padTime x).nt = ((x.nt + 3) / 4) * 4 := rfl
  refine ⟨⟨hpt, ?_, ?_, rfl⟩, ?_, rfl, ?_, ?_, ?_⟩
  · rw [hpt]; omega
  · rw [hpt]; omega
  · intro b d t f ht
    simp only [BSRoformer21a.padTime]
    rw [if_neg (Nat.not_lt.mpr ht)]
  · show 16 * x.nd / 16 = x.nd
    omega
  · show min x.nt (((x.nt + 3) / 4) * 4 / 4 * 4) = x.nt
    omega
  · show x.nf / 4 * 4 = x.nf
    exact Nat.div_mul_cancel hf

/-- Witness for C4 at the spec's example: `T = 13`, patch time extent
4, a 1×1×13×4 tensor of ones; the pad goes to 16 and the round trip
returns to 13. -/
theorem c4_patch_pad_roundtrip_witness :
    ((4 : ℕ) ∣ (T4.mk 1 1 13 4 (fun _ _ _ _ => 1)).nf ∧
      (BSRoformer21a.padTime (T4.mk 1 1 13 4 (fun _ _ _ _ => 1))).nt = 16) ∧
    (((BSRoformer21a.padTime (T4.mk 1 1 13 4 (fun _ _ _ _ => 1))).nt =
        (((T4.mk 1 1 13 4 (fun _ _ _ _ => (1 : ℚ))).nt + 3) / 4) * 4 ∧
      4 ∣ (BSRoformer21a.padTime (T4.mk 1 1 13 4 (fun _ _ _ _ => 1))).nt ∧
      (T4.mk 1 1 13 4 (fun _ _ _ _ => (1 : ℚ))).nt ≤
        (BSRoformer21a.padTime (T4.mk 1 1 13 4 (fun _ _ _ _ => 1))).nt ∧
      (BSRoformer21a.padTime (T4.mk 1 1 13 4 (fun _ _ _ _ => 1))).nf =
        (T4.mk 1 1 13 4 (fun _ _ _ _ => (1 : ℚ))).nf) ∧
    (∀ b d t f, (T4.mk 1 1 13 4 (fun _ _ _ _ => (1 : ℚ))).nt ≤ t →
      (BSRoformer21a.padTime (T4.mk 1 1 13 4 (fun _ _ _ _ => 1))).data b d t f = 0) ∧
    ((BSRoformer21a.unpatchify (fun _ _ => 0) (fun _ => 0)
        (16 * (T4.mk 1 1 13 4 (fun _ _ _ _ => (1 : ℚ))).nd)
        (BSRoformer21a.patchify (fun _ _ => 0) (fun _ => 0) 1
          (T4.mk 1 1 13 4 (fun _ _ _ _ => 1)))
        (T4.mk 1 1 13 4 (fun _ _ _ _ => (1 : ℚ))).nt).nb =
        (T4.mk 1 1 13 4 (fun _ _ _ _ => (1 : ℚ))).nb ∧
     (BSRoformer21a.unpatchify (fun _ _ => 0) (fun _ => 0)
        (16 * (T4.mk 1 1 13 4 (fun _ _ _ _ => (1 : ℚ))).nd)
        (BSRoformer21a.patchify (fun _ _ => 0) (fun _ => 0) 1
          (T4.mk 1 1 13 4 (fun _ _ _ _ => 1)))
        (T4.mk 1 1 13 4 (fun _ _ _ _ => (1 : ℚ))).nt).nd =
        (T4.mk 1 1 13 4 (fun _ _ _ _ => (1 : ℚ))).nd ∧
     (BSRoformer21a.unpatchify (fun _ _ => 0) (fun _ => 0)
        (16 * (T4.mk 1 1 13 4 (fun _ _ _ _ => (1 : ℚ))).nd)
        (BSRoformer21a.patchify (fun _ _ => 0) (fun _ => 0) 1
          (T4.mk 1 1 13 4 (fun _ _ _ _ => 1)))
        (T4.mk 1 1 13 4 (fun _ _ _ _ => (1 : ℚ))).nt).nt =
        (T4.mk 1 1 13 4 (fun _ _ _ _ => (1 : ℚ))).nt ∧
     (BSRoformer21a.unpatchify (fun _ _ => 0) (fun _ => 0)
        (16 * (T4.mk 1 1 13 4 (fun _ _ _ _ => (1 : ℚ))).nd)
        (BSRoformer21a.patchify (fun _ _ => 0) (fun _ => 0) 1
          (T4.mk 1 1 13 4 (fun _ _ _ _ => 1)))
        (T4.mk 1 1 13 4 (fun _ _ _ _ => (1 : ℚ))).nt).nf =
        (T4.mk 1 1 13 4 (fun _ _ _ _ => (1 : ℚ))).nf)) :=
  ⟨⟨by decide, rfl⟩,
   c4_patch_pad_roundtrip (fun _ _ => 0) (fun _ => 0) (fun _ => 0) (fun _ => 0) 1
     (T4.mk 1 1 13 4 (fun _ _ _ _ => 1)) (by decide)⟩

/-! ### C2: call-time validation -/

/-- Helper: in an `Except` pipeline an already-failed step fails the
whole chain. -/
theorem except_bind_not_ok {α β : Type} (e : Except String α)
    (f : α → Except String β) (h : e.isOk = false) : (e >>= f).isOk = false := by
  cases e <;> simp_all [Except.isOk, Except.toBool, Bind.bind, Except.bind]

unseal Rat.add Rat.sub Rat.mul Rat.inv in
set_option maxRecDepth 1000000 in
/-- Helper: every gather index of the constructed band table lies
inside the 5-bin range. -/
theorem bandIdxEx_inRange :
    bandIdxEx.all (fun idxes => idxes.all (fun j => j < 5)) = true := by decide

unseal Rat.add Rat.sub Rat.mul Rat.inv in
set_option maxRecDepth 1000000 in
/-- Helper: the synthetic first band of the constructed table gathers
exactly bin 0. -/
theorem bandIdxEx_first_mem : [0] ∈ bandIdxEx := by decide

unseal Rat.add Rat.sub Rat.mul Rat.inv in
set_option maxRecDepth 1000000 in
/-- **C2 counterexample** — the claim says a forward call on non-finite
input raises a descriptive error immediately instead of running the
pipeline.  On the validly constructed model instance (`melbanksEx`
passes the constructor's partition check) a correctly-shaped input
tensor carrying non-finite values makes the forward pass run the whole
pipeline and return successfully, the non-finite taint reaching the
output: no step checks finiteness. -/
theorem c2_nan_counterexample :
    StftToImage.partitionCheck melbanksEx 5 = true ∧
    (ShapeTaint.TD.mk [1, 2, 6] true).nan = true ∧
    forwardEx ⟨[1, 2, 6], true⟩ = .ok ⟨[1, 2, 6], true⟩ := by
  refine ⟨by decide, rfl, by decide⟩

unseal Rat.add Rat.sub Rat.mul Rat.inv in
set_option maxRecDepth 1000000 in
/-- **C2 (amended)** — a wrong channel count does fail the forward
pass, but only with the shape error raised when the first nonempty
band's compress projection is reached (after the analysis transform),
not by an immediate explicit check; non-finite input is not detected at
all: the pass runs the full pipeline without error and the non-finite
values propagate into the returned output. -/
theorem c2_no_validation (nanB : Bool) (c : ℕ) (hc : c ≠ 2) :
    (forwardEx ⟨[1, c, 6], nanB⟩).isOk = false ∧
    forwardEx ⟨[1, 2, 6], nanB⟩ = .ok ⟨[1, 2, 6], nanB⟩ := by
  constructor
  · have ht : ShapeTaint.transformS 4 64 bandIdxEx ⟨[1, c * 2, 4, 5], nanB⟩ =
        .error "band projection features mismatch" := by
      show (if (bandIdxEx.all fun idxes => idxes.all fun j => decide (j < 5)) = true
            then
              if (bandIdxEx.all fun idxes =>
                    decide (c * 2 * idxes.length = 4 * idxes.length)) = true then
                Except.ok (ShapeTaint.TD.mk [1, 64, 4, bandIdxEx.length] nanB)
              else Except.error "band projection features mismatch"
            else Except.error "band gather index out of range") =
          Except.error "band projection features mismatch"
      rw [if_pos bandIdxEx_inRange, if_neg]
      intro hall
      have := List.all_eq_true.mp hall [0] bandIdxEx_first_mem
      simp at this
      omega
    have hpre : forwardEx ⟨[1, c, 6], nanB⟩ =
        ShapeTaint.transformS 4 64 bandIdxEx ⟨[1, c * 2, 4, 5], nanB⟩ >>=
          (fun x => ShapeTaint.patchifyS (64 * 16) 384 x >>=
            fun x => ShapeTaint.encoderS 384 12 12 x >>=
              fun x => ShapeTaint.unpatchifyS 384 (64 * 16) 4 x >>=
                fun x => ShapeTaint.inverseS 4 64 5 bandIdxEx x >>=
                  fun x => ShapeTaint.unstackRealS 2 x >>=
                    fun mask => ShapeTaint.viewAsComplexS mask >>=
                      fun mask =>
                        ShapeTaint.maskMulS ⟨[1, c, 4, 5], nanB⟩ mask >>=
                          fun sep => ShapeTaint.istftS 2 sep) := rfl
    rw [hpre]
    exact except_bind_not_ok _ _ (by rw [ht]; rfl)
  · cases nanB
    · decide
    · decide

/-- Witness for the amended C2 at `c = 1`, non-finite input. -/
theorem c2_no_validation_witness :
    ((1 : ℕ) ≠ 2) ∧
    ((forwardEx ⟨[1, 1, 6], true⟩).isOk = false ∧
     forwardEx ⟨[1, 2, 6], true⟩ = .ok ⟨[1, 2, 6], true⟩) :=
  ⟨by decide, c2_no_validation true 1 (by decide)⟩

/-! ### C9: attention block shape -/

/-- **C9** — under the constructor's asserted precondition
(`dim % n_heads == 0`), `Attention.forward` succeeds on every
`(rows, seq, width = dim)` input and its output has exactly the input's
shape.  The embedded `sdpa` it goes through is the full-sequence
softmax: every query position attends over the whole key range
(`is_causal=False`, `attn_mask=None`) and nothing is dropped
(`dropout_p=0`). -/
theorem c9_attention_shape (p : AttentionP) (x : T3)
    (hw : x.width = p.dim) (hdvd : p.n_heads ∣ p.dim) (hpos : 0 < p.n_heads) :
    ∃ y, Attention.forward p x = .ok y ∧
      y.rows = x.rows ∧ y.seq = x.seq ∧ y.width = x.width := by
  have h3 : 3 * p.dim / (3 * p.n_heads) = p.dim / p.n_heads :=
    Nat.mul_div_mul_left _ _ (by norm_num)
  have hfinal : p.n_heads * (3 * p.dim / (3 * p.n_heads)) = p.dim := by
    rw [h3]
    exact Nat.mul_div_cancel' hdvd
  unfold Attention.forward
  unfold Attention.linNoBias
  rw [if_pos hw]
  simp only [Bind.bind, Except.bind]
  unfold Attention.splitHeads
  rw [if_pos (show 0 < p.n_heads ∧ 3 * p.n_heads ∣
      (T3.mk x.rows x.seq (3 * p.dim)
        (fun r t o => ∑ i ∈ Finset.range p.dim, p.wAttn o i * x.data r t i)).width from
    ⟨hpos, mul_dvd_mul_left 3 hdvd⟩)]
  simp only [Attention.rotate, Attention.sdpa, Attention.mergeHeads]
  rw [if_pos (show (p.n_heads : ℕ) * (3 * p.dim / (3 * p.n_heads)) = p.dim from hfinal)]
  exact ⟨_, rfl, rfl, rfl, hw.symm⟩

/-- Witness for C9 at `dim = 1`, one head, a 1×1×1 zero tensor. -/
theorem c9_attention_shape_witness :
    ((T3.mk 1 1 1 (fun _ _ _ => (0 : ℚ))).width =
        (AttentionP.mk 1 1 (fun _ _ => 0) (fun _ _ => 0) (fun _ v => v)
          (fun _ => 1) 1).dim ∧
      (AttentionP.mk 1 1 (fun _ _ => (0 : ℚ)) (fun _ _ => 0) (fun _ v => v)
          (fun _ => 1) 1).n_heads ∣
        (AttentionP.mk 1 1 (fun _ _ => (0 : ℚ)) (fun _ _ => 0) (fun _ v => v)
          (fun _ => 1) 1).dim ∧
      0 < (AttentionP.mk 1 1 (fun _ _ => (0 : ℚ)) (fun _ _ => 0) (fun _ v => v)
          (fun _ => 1) 1).n_heads) ∧
    ∃ y,
      Attention.forward
          (AttentionP.mk 1 1 (fun _ _ => 0) (fun _ _ => 0) (fun _ v => v)
            (fun _ => 1) 1)
          (T3.mk 1 1 1 (fun _ _ _ => 0)) = .ok y ∧
        y.rows = (T3.mk 1 1 1 (fun _ _ _ => (0 : ℚ))).rows ∧
        y.seq = (T3.mk 1 1 1 (fun _ _ _ => (0 : ℚ))).seq ∧
        y.width = (T3.mk 1 1 1 (fun _ _ _ => (0 : ℚ))).width :=
  ⟨⟨rfl, by decide, by decide⟩,
   c9_attention_shape
     (AttentionP.mk 1 1 (fun _ _ => 0) (fun _ _ => 0) (fun _ v => v) (fun _ => 1) 1)
     (T3.mk 1 1 1 (fun _ _ _ => 0)) rfl (by decide) (by decide)⟩

/-! ### C10: transformer stack shape preservation -/

/-- Helper: one stack stage preserves the grid dimensions when the
batch extent matches the fold parameter `_B` and is positive. -/
theorem stage_dims (rsqrt : ℚ → ℚ) (eps : ℚ) (bB : ℕ) (pq : BlockP × BlockP)
    (acc : T4) (hb : 0 < bB) (hacc : acc.nb = bB) :
    (TransformerLayers.stage rsqrt eps bB pq acc).nb = acc.nb ∧
    (TransformerLayers.stage rsqrt eps bB pq acc).nd = acc.nd ∧
    (TransformerLayers.stage rsqrt eps bB pq acc).nt = acc.nt ∧
    (TransformerLayers.stage rsqrt eps bB pq acc).nf = acc.nf := by
  refine ⟨hacc.symm, rfl, ?_, ?_⟩
  · show bB * acc.nt / bB = acc.nt
    exact Nat.mul_div_cancel_left _ hb
  · show acc.nb * acc.nf / bB = acc.nf
    rw [hacc]
    exact Nat.mul_div_cancel_left _ hb

/-- **C10** — for every 4D input `(batch, dim, time, freq)` with a
nonempty batch, the transformer stack's forward pass returns a tensor
of exactly the same four extents: no axis is reduced or halved (the
source docstring's `time_steps // 2, freq_bins // 2` does not describe
the computation). -/
theorem c10_stack_preserves_shape (rsqrt : ℚ → ℚ) (eps : ℚ)
    (layers : List (BlockP × BlockP)) (x : T4) (hb : 0 < x.nb) :
    (TransformerLayers.forwardT rsqrt eps layers x).nb = x.nb ∧
    (TransformerLayers.forwardT rsqrt eps layers x).nd = x.nd ∧
    (TransformerLayers.forwardT rsqrt eps layers x).nt = x.nt ∧
    (TransformerLayers.forwardT rsqrt eps layers x).nf = x.nf := by
  have aux : ∀ (ls : List (BlockP × BlockP)) (acc : T4),
      acc.nb = x.nb → acc.nd = x.nd → acc.nt = x.nt → acc.nf = x.nf →
      (ls.foldl (fun a pq => TransformerLayers.stage rsqrt eps x.nb pq a) acc).nb
          = x.nb ∧
      (ls.foldl (fun a pq => TransformerLayers.stage rsqrt eps x.nb pq a) acc).nd
          = x.nd ∧
      (ls.foldl (fun a pq => TransformerLayers.stage rsqrt eps x.nb pq a) acc).nt
          = x.nt ∧
      (ls.foldl (fun a pq => TransformerLayers.stage rsqrt eps x.nb pq a) acc).nf
          = x.nf := by
    intro ls
    induction ls with
    | nil =>
      intro acc h1 h2 h3 h4
      exact ⟨h1, h2, h3, h4⟩
    | cons hd tl ih =>
      intro acc h1 h2 h3 h4
      rw [List.foldl_cons]
      have hs := stage_dims rsqrt eps x.nb hd acc hb h1
      exact ih _ (hs.1.trans h1) (hs.2.1.trans h2) (hs.2.2.1.trans h3)
        (hs.2.2.2.trans h4)
  exact aux layers x rfl rfl rfl rfl

/-- Witness for C10 on a 1×1×1×1 tensor and a single block pair of
identity sub-modules. -/
theorem c10_stack_preserves_shape_witness :
    (0 < (T4.mk 1 1 1 1 (fun _ _ _ _ => (0 : ℚ))).nb) ∧
    ((TransformerLayers.forwardT (fun _ => 1) 0
        [(BlockP.mk (fun s => s) (fun s => s) (fun _ => 1) (fun _ => 1),
          BlockP.mk (fun s => s) (fun s => s) (fun _ => 1) (fun _ => 1))]
        (T4.mk 1 1 1 1 (fun _ _ _ _ => 0))).nb =
      (T4.mk 1 1 1 1 (fun _ _ _ _ => (0 : ℚ))).nb ∧
     (TransformerLayers.forwardT (fun _ => 1) 0
        [(BlockP.mk (fun s => s) (fun s => s) (fun _ => 1) (fun _ => 1),
          BlockP.mk (fun s => s) (fun s => s) (fun _ => 1) (fun _ => 1))]
        (T4.mk 1 1 1 1 (fun _ _ _ _ => 0))).nd =
      (T4.mk 1 1 1 1 (fun _ _ _ _ => (0 : ℚ))).nd ∧
     (TransformerLayers.forwardT (fun _ => 1) 0
        [(BlockP.mk (fun s => s) (fun s => s) (fun _ => 1) (fun _ => 1),
          BlockP.mk (fun s => s) (fun s => s) (fun _ => 1) (fun _ => 1))]
        (T4.mk 1 1 1 1 (fun _ _ _ _ => 0))).nt =
      (T4.mk 1 1 1 1 (fun _ _ _ _ => (0 : ℚ))).nt ∧
     (TransformerLayers.forwardT (fun _ => 1) 0
        [(BlockP.mk (fun s => s) (fun s => s) (fun _ => 1) (fun _ => 1),
          BlockP.mk (fun s => s) (fun s => s) (fun _ => 1) (fun _ => 1))]
        (T4.mk 1 1 1 1 (fun _ _ _ _ => 0))).nf =
      (T4.mk 1 1 1 1 (fun _ _ _ _ => (0 : ℚ))).nf) :=
  ⟨by decide,
   c10_stack_preserves_shape (fun _ => 1) 0
     [(BlockP.mk (fun s => s) (fun s => s) (fun _ => 1) (fun _ => 1),
       BlockP.mk (fun s => s) (fun s => s) (fun _ => 1) (fun _ => 1))]
     (T4.mk 1 1 1 1 (fun _ _ _ _ => 0)) (by decide)⟩

/-! ### C8: the alternating-axis dataflow -/

/-- Helper: RMS normalisation of a slice reads only the in-range part
of its input. -/
theorem rmsnormSlice_agree (rsqrt : ℚ → ℚ) (eps : ℚ) (w : ℕ → ℚ)
    (width seq : ℕ) (u u2 : ℕ → ℕ → ℚ)
    (hag : ∀ i < seq, ∀ j < width, u i j = u2 i j) :
    ∀ i < seq, ∀ j < width,
      rmsnormSlice rsqrt eps w width u i j =
        rmsnormSlice rsqrt eps w width u2 i j := by
  intro i hi j hj
  unfold rmsnormSlice
  rw [hag i hi j hj]
  have hsum : (∑ k ∈ Finset.range width, u i k * u i k) =
      ∑ k ∈ Finset.range width, u2 i k * u2 i k := by
    refine Finset.sum_congr rfl (fun k hk => ?_)
    rw [hag i hi k (Finset.mem_range.mp hk)]
  rw [hsum]

/-- Helper: a `TransformerBlock` built from extent-respecting attention
and MLP sub-modules is itself extent-respecting. -/
theorem blockForward_respects (rsqrt : ℚ → ℚ) (eps : ℚ) (width seq : ℕ)
    (p : BlockP) (ha : TransformerLayers.RespectsSlice seq width p.attF)
    (hm : TransformerLayers.RespectsSlice seq width p.mlpF) :
    TransformerLayers.RespectsSlice seq width (blockForward rsqrt eps width p) := by
  intro s s2 hag i hi j hj
  have hn1 := rmsnormSlice_agree rsqrt eps p.wa width seq s s2 hag
  have hy : ∀ i2 < seq, ∀ j2 < width,
      s i2 j2 + p.attF (rmsnormSlice rsqrt eps p.wa width s) i2 j2 =
      s2 i2 j2 + p.attF (rmsnormSlice rsqrt eps p.wa width s2) i2 j2 := by
    intro i2 hi2 j2 hj2
    rw [hag i2 hi2 j2 hj2, ha _ _ hn1 i2 hi2 j2 hj2]
  have hn2 := rmsnormSlice_agree rsqrt eps p.wf width seq _ _ hy
  simp only [blockForward]
  rw [hy i hi j hj, hm _ _ hn2 i hi j hj]

/-- Helper: one source-side stage agrees with one spec-side stage
(time-attend with frequency folded into batch, then freq-attend with
time folded into batch) on every in-range index. -/
theorem stage_agree (rsqrt : ℚ → ℚ) (eps : ℚ) (bB : ℕ) (pq : BlockP × BlockP)
    (acc acc2 : T4) (hb : 0 < bB) (hacc : acc.nb = bB)
    (h1a : TransformerLayers.RespectsSlice acc.nt acc.nd pq.1.attF)
    (h1m : TransformerLayers.RespectsSlice acc.nt acc.nd pq.1.mlpF)
    (h2a : TransformerLayers.RespectsSlice acc.nf acc.nd pq.2.attF)
    (h2m : TransformerLayers.RespectsSlice acc.nf acc.nd pq.2.mlpF)
    (hA : T4Agree acc acc2) :
    T4Agree (TransformerLayers.stage rsqrt eps bB pq acc)
      (TransformerLayers.stageS rsqrt eps pq acc2) := by
  obtain ⟨hAb, hAd, hAt, hAf, hAdata⟩ := hA
  obtain ⟨hsb, hsd, hst, hsf⟩ := stage_dims rsqrt eps bB pq acc hb hacc
  refine ⟨by rw [hsb, hAb]; rfl, by rw [hsd, hAd]; rfl, by rw [hst, hAt]; rfl,
    by rw [hsf, hAf]; rfl, ?_⟩
  intro b hb2 d hd2 t ht2 f hf2
  rw [hsb] at hb2
  rw [hsd] at hd2
  rw [hst] at ht2
  rw [hsf] at hf2
  have hnt0 : 0 < acc.nt := Nat.pos_of_ne_zero (by omega)
  have hnf0 : 0 < acc.nf := Nat.pos_of_ne_zero (by omega)
  simp only [TransformerLayers.stage, TransformerLayers.stageS,
    TransformerLayers.applyRows, TransformerLayers.rearrBack,
    TransformerLayers.rearrFreq, TransformerLayers.rearrTime,
    TransformerLayers.freqAttendS, TransformerLayers.timeAttendS]
  rw [show bB * acc.nt / bB = acc.nt from Nat.mul_div_cancel_left _ hb]
  rw [show acc.nb * acc.nf / bB = acc.nf by rw [hacc]; exact Nat.mul_div_cancel_left _ hb]
  rw [show (b * acc.nt + t) / acc.nt = b by
    rw [Nat.mul_comm b acc.nt, Nat.mul_add_div hnt0, Nat.div_eq_of_lt ht2, Nat.add_zero]]
  rw [show (b * acc.nt + t) % acc.nt = t by
    rw [Nat.mul_comm b acc.nt, Nat.mul_add_mod, Nat.mod_eq_of_lt ht2]]
  rw [← hAd]
  refine blockForward_respects rsqrt eps acc.nd acc.nf pq.2 h2a h2m _ _
    ?_ f hf2 d hd2
  intro i hi c hc
  have hslice : (fun tt dd => acc.data ((b * acc.nf + i) / acc.nf) dd tt
      ((b * acc.nf + i) % acc.nf)) = fun tt dd => acc.data b dd tt i := by
    funext tt dd
    rw [show (b * acc.nf + i) / acc.nf = b by
      rw [Nat.mul_comm b acc.nf, Nat.mul_add_div hnf0, Nat.div_eq_of_lt hi,
        Nat.add_zero]]
    rw [show (b * acc.nf + i) % acc.nf = i by
      rw [Nat.mul_comm b acc.nf, Nat.mul_add_mod, Nat.mod_eq_of_lt hi]]
  rw [hslice]
  refine blockForward_respects rsqrt eps acc.nd acc.nt pq.1 h1a h1m _ _
    ?_ t ht2 c hc
  intro tt htt dd hdd
  exact hAdata b (hacc ▸ hb2) dd hdd tt htt i hi

/-- **C8** — in every transformer stage the time-attend block runs
first on the frequency-folded view (the block sees, for each fixed
`(batch, freq)` position, the sequence over time), then the freq-attend
block runs on the time-folded view (for each fixed `(batch, time)`
position, the sequence over frequency), each block applying the two
residual sub-layers `x = x + Att(Norm(x))` then `x = x + FF(Norm(x))`:
the source stack `forwardT` coincides with the spec-side
characterisation `forwardS` built from `timeAttendS`, `freqAttendS` and
`blockForward` on all in-range indices. -/
theorem c8_alternating_axes (rsqrt : ℚ → ℚ) (eps : ℚ)
    (layers : List (BlockP × BlockP)) (x : T4) (hb : 0 < x.nb)
    (hresp : ∀ pq ∈ layers,
      TransformerLayers.RespectsSlice x.nt x.nd pq.1.attF ∧
      TransformerLayers.RespectsSlice x.nt x.nd pq.1.mlpF ∧
      TransformerLayers.RespectsSlice x.nf x.nd pq.2.attF ∧
      TransformerLayers.RespectsSlice x.nf x.nd pq.2.mlpF) :
    T4Agree (TransformerLayers.forwardT rsqrt eps layers x)
      (TransformerLayers.forwardS rsqrt eps layers x) := by
  have aux : ∀ (ls : List (BlockP × BlockP)) (acc acc2 : T4),
      (∀ pq ∈ ls,
        TransformerLayers.RespectsSlice x.nt x.nd pq.1.attF ∧
        TransformerLayers.RespectsSlice x.nt x.nd pq.1.mlpF ∧
        TransformerLayers.RespectsSlice x.nf x.nd pq.2.attF ∧
        TransformerLayers.RespectsSlice x.nf x.nd pq.2.mlpF) →
      acc.nb = x.nb → acc.nd = x.nd → acc.nt = x.nt → acc.nf = x.nf →
      T4Agree acc acc2 →
      T4Agree
        (ls.foldl (fun a pq => TransformerLayers.stage rsqrt eps x.nb pq a) acc)
        (ls.foldl (fun a pq => TransformerLayers.stageS rsqrt eps pq a) acc2) := by
    intro ls
    induction ls with
    | nil => intro acc acc2 _ _ _ _ _ hA; exact hA
    | cons hd tl ih =>
      intro acc acc2 hr h1 h2 h3 h4 hA
      rw [List.foldl_cons, List.foldl_cons]
      obtain ⟨r1a, r1m, r2a, r2m⟩ := hr hd (List.mem_cons_self hd tl)
      have hstep := stage_agree rsqrt eps x.nb hd acc acc2 hb h1
        (h3 ▸ h2 ▸ r1a) (h3 ▸ h2 ▸ r1m) (h4 ▸ h2 ▸ r2a) (h4 ▸ h2 ▸ r2m) hA
      obtain ⟨hsb, hsd, hst, hsf⟩ := stage_dims rsqrt eps x.nb hd acc hb h1
      exact ih _ _ (fun pq hpq => hr pq (List.mem_cons_of_mem _ hpq))
        (hsb.trans h1) (hsd.trans h2) (hst.trans h3) (hsf.trans h4) hstep
  exact aux layers x x hresp rfl rfl rfl rfl
    ⟨rfl, rfl, rfl, rfl, fun b _ d _ t _ f _ => rfl⟩

/-- Witness for C8 on a 1×1×1×1 tensor with identity attention and MLP
sub-modules (which respect any extent). -/
theorem c8_alternating_axes_witness :
    (0 < (T4.mk 1 1 1 1 (fun _ _ _ _ => (0 : ℚ))).nb) ∧
    T4Agree
      (TransformerLayers.forwardT (fun _ => 1) 0
        [(BlockP.mk (fun s => s) (fun s => s) (fun _ => 1) (fun _ => 1),
          BlockP.mk (fun s => s) (fun s => s) (fun _ => 1) (fun _ => 1))]
        (T4.mk 1 1 1 1 (fun _ _ _ _ => 0)))
      (TransformerLayers.forwardS (fun _ => 1) 0
        [(BlockP.mk (fun s => s) (fun s => s) (fun _ => 1) (fun _ => 1),
          BlockP.mk (fun s => s) (fun s => s) (fun _ => 1) (fun _ => 1))]
        (T4.mk 1 1 1 1 (fun _ _ _ _ => 0))) :=
  ⟨by decide,
   c8_alternating_axes (fun _ => 1) 0
     [(BlockP.mk (fun s => s) (fun s => s) (fun _ => 1) (fun _ => 1),
       BlockP.mk (fun s => s) (fun s => s) (fun _ => 1) (fun _ => 1))]
     (T4.mk 1 1 1 1 (fun _ _ _ _ => 0)) (by decide)
     (by
       intro pq hpq
       rw [List.mem_singleton] at hpq
       subst hpq
       exact ⟨fun s s2 h i hi j hj => h i hi j hj,
         fun s s2 h i hi j hj => h i hi j hj,
         fun s s2 h i hi j hj => h i hi j hj,
         fun s s2 h i hi j hj => h i hi j hj⟩)⟩

/-! ### C6: the scatter-accumulate closed form of `inverse_transform` -/

/-- Helper: a single accumulate keeps the row length. -/
theorem addAt_length (l : List ℚ) (j : ℕ) (a : ℚ) :
    (StftToImage.addAt l j a).length = l.length := List.length_set l j _

/-- Helper: the scatter loop keeps the row length. -/
theorem scatterAdd_length (ps : List (ℕ × ℚ)) (l : List ℚ) :
    (StftToImage.scatterAdd l ps).length = l.length := by
  induction ps generalizing l with
  | nil => rfl
  | cons hd tl ih =>
    show (StftToImage.scatterAdd (StftToImage.addAt l hd.1 hd.2) tl).length = _
    rw [ih, addAt_length]

/-- Helper: accumulating at `j` adds to position `j`. -/
theorem addAt_getD_self (l : List ℚ) (j : ℕ) (a : ℚ) (h : j < l.length) :
    (StftToImage.addAt l j a).getD j 0 = l.getD j 0 + a := by
  unfold StftToImage.addAt
  rw [List.getD_eq_getElem _ _ (by rw [List.length_set]; exact h)]
  exact List.getElem_set_self _

/-- Helper: accumulating at `j` leaves position `k ≠ j` unchanged. -/
theorem addAt_getD_ne (l : List ℚ) (j k : ℕ) (a : ℚ) (hne : j ≠ k)
    (hk : k < l.length) :
    (StftToImage.addAt l j a).getD k 0 = l.getD k 0 := by
  unfold StftToImage.addAt
  rw [List.getD_eq_getElem _ _ (by rw [List.length_set]; exact hk),
      List.getD_eq_getElem _ _ hk]
  exact List.getElem_set_ne hne _

/-- Helper: the scatter loop sums, never overwrites — position `j`
receives the old value plus the sum of every pair scattered to `j`. -/
theorem scatterAdd_getD (ps : List (ℕ × ℚ)) (l : List ℚ) (j : ℕ)
    (hj : j < l.length) :
    (StftToImage.scatterAdd l ps).getD j 0 =
      l.getD j 0 + ((ps.filter (fun p => p.1 == j)).map Prod.snd).sum := by
  induction ps generalizing l with
  | nil => simp [StftToImage.scatterAdd]
  | cons hd tl ih =>
    show (StftToImage.scatterAdd (StftToImage.addAt l hd.1 hd.2) tl).getD j 0 = _
    rw [ih _ (by rw [addAt_length]; exact hj)]
    by_cases hcase : hd.1 = j
    · rw [hcase, addAt_getD_self _ _ _ hj, List.filter_cons,
        if_pos (by simp [hcase]), List.map_cons, List.sum_cons, add_assoc]
    · rw [addAt_getD_ne _ _ _ _ hcase hj, List.filter_cons,
        if_neg (by simp [hcase])]

/-- Helper: one band's pass keeps the channel count. -/
theorem inverseBand_length (bd : StftToImage.Band) (v : List ℚ)
    (y : List (List ℚ)) :
    (StftToImage.inverseBand bd v y).length = y.length := by
  simp [StftToImage.inverseBand, List.enum_length]

/-- Helper: channel row `c` after one band's pass is the scatter of
that band's channel-`c` chunk into the old row. -/
theorem inverseBand_row (bd : StftToImage.Band) (v : List ℚ)
    (y : List (List ℚ)) (c : ℕ) (hc : c < y.length) :
    (StftToImage.inverseBand bd v y).getD c [] =
      StftToImage.scatterAdd (y.getD c [])
        ((StftToImage.nonzeroIdx bd.row).zip
          (StftToImage.chunkOf (bd.invNet.apply v)
            (StftToImage.nonzeroIdx bd.row).length c)) := by
  unfold StftToImage.inverseBand
  rw [List.getD_eq_getElem _ _
    (by rw [List.length_map, List.enum_length]; exact hc)]
  rw [List.getElem_map, List.getElem_enum, List.getD_eq_getElem y [] hc]

/-- Helper: one band's pass keeps each channel row's length. -/
theorem inverseBand_row_length (bd : StftToImage.Band) (v : List ℚ)
    (y : List (List ℚ)) (c : ℕ) (hc : c < y.length) :
    ((StftToImage.inverseBand bd v y).getD c []).length =
      (y.getD c []).length := by
  rw [inverseBand_row _ _ _ _ hc, scatterAdd_length]

/-- Helper: one band's pass adds exactly its contribution at `(c, j)`. -/
theorem inverseBand_getD (bd : StftToImage.Band) (v : List ℚ)
    (y : List (List ℚ)) (c j : ℕ) (hc : c < y.length)
    (hj : j < (y.getD c []).length) :
    ((StftToImage.inverseBand bd v y).getD c []).getD j 0 =
      (y.getD c []).getD j 0 + StftToImage.bandContrib bd v c j := by
  rw [inverseBand_row _ _ _ _ hc]
  exact scatterAdd_getD _ _ _ hj

/-- Helper: the band loop keeps the channel count. -/
theorem foldl_inverseBand_length (pairs : List (StftToImage.Band × List ℚ))
    (y : List (List ℚ)) :
    (pairs.foldl (fun acc p => StftToImage.inverseBand p.1 p.2 acc) y).length =
      y.length := by
  induction pairs generalizing y with
  | nil => rfl
  | cons hd tl ih =>
    rw [List.foldl_cons, ih, inverseBand_length]

/-- Helper: the band loop keeps each channel row's length. -/
theorem foldl_inverseBand_row_length (pairs : List (StftToImage.Band × List ℚ))
    (y : List (List ℚ)) (c : ℕ) (hc : c < y.length) :
    ((pairs.foldl (fun acc p => StftToImage.inverseBand p.1 p.2 acc) y).getD c
        []).length = (y.getD c []).length := by
  induction pairs generalizing y with
  | nil => rfl
  | cons hd tl ih =>
    rw [List.foldl_cons, ih _ (by rw [inverseBand_length]; exact hc),
      inverseBand_row_length _ _ _ _ hc]

/-- Helper: the band loop accumulates the sum of all per-band
contributions at `(c, j)`. -/
theorem foldl_inverseBand_getD (pairs : List (StftToImage.Band × List ℚ))
    (y : List (List ℚ)) (c j : ℕ) (hc : c < y.length)
    (hj : j < (y.getD c []).length) :
    ((pairs.foldl (fun acc p => StftToImage.inverseBand p.1 p.2 acc) y).getD c
        []).getD j 0 =
      (y.getD c []).getD j 0 +
        (pairs.map (fun p => StftToImage.bandContrib p.1 p.2 c j)).sum := by
  induction pairs generalizing y with
  | nil => simp
  | cons hd tl ih =>
    rw [List.foldl_cons,
      ih _ (by rw [inverseBand_length]; exact hc)
        (by rw [inverseBand_row_length _ _ _ _ hc]; exact hj),
      inverseBand_getD _ _ _ _ _ hc hj, List.map_cons, List.sum_cons, add_assoc]

/-- Helper: the closed form of `inverse_transform` — channel count,
row widths, and the per-entry sum of band contributions. -/
theorem inverse_transform_closed_form (bands : List StftToImage.Band)
    (inCh nBins : ℕ) (x : ℕ → ℕ → List (List ℚ)) (b t : ℕ) :
    (StftToImage.inverse_transform bands inCh nBins x b t).length = inCh ∧
    (∀ c < inCh,
      ((StftToImage.inverse_transform bands inCh nBins x b t).getD c
        []).length = nBins) ∧
    (∀ c < inCh, ∀ j < nBins,
      ((StftToImage.inverse_transform bands inCh nBins x b t).getD c
          []).getD j 0 =
        ((List.zip bands (x b t)).map
          (fun p => StftToImage.bandContrib p.1 p.2 c j)).sum) := by
  have hy0 : ∀ c < inCh,
      ((List.replicate inCh (List.replicate nBins (0 : ℚ))).getD c []) =
        List.replicate nBins (0 : ℚ) := by
    intro c hc
    rw [List.getD_eq_getElem _ _ (by rw [List.length_replicate]; exact hc)]
    exact List.getElem_replicate _ _
  unfold StftToImage.inverse_transform StftToImage.inverseSlice
  refine ⟨?_, ?_, ?_⟩
  · rw [foldl_inverseBand_length, List.length_replicate]
  · intro c hc
    rw [foldl_inverseBand_row_length _ _ _
        (by rw [List.length_replicate]; exact hc),
      hy0 c hc, List.length_replicate]
  · intro c hc j hj
    rw [foldl_inverseBand_getD _ _ _ _
        (by rw [List.length_replicate]; exact hc)
        (by rw [hy0 c hc, List.length_replicate]; exact hj),
      hy0 c hc]
    rw [List.getD_eq_getElem _ _ (by rw [List.length_replicate]; exact hj),
      List.getElem_replicate, zero_add]

/-- **C6** — `inverse_transform` starts from a zero-initialised
`(in_channels, n_fft//2+1)` accumulator per `(batch, time)` position,
expands each band's embedding through that band's expand projection
(inside `bandContrib`), and scatter-accumulates by summation, never by
overwriting: every output entry `(c, j)` is exactly the sum of the
contributions of all bands whose index set covers bin `j`. -/
theorem c6_inverse_scatter_sum (bands : List StftToImage.Band)
    (inCh nBins : ℕ) (x : ℕ → ℕ → List (List ℚ)) (b t : ℕ) :
    (StftToImage.inverse_transform bands inCh nBins x b t).length = inCh ∧
    (∀ c < inCh,
      ((StftToImage.inverse_transform bands inCh nBins x b t).getD c
        []).length = nBins) ∧
    (∀ c < inCh, ∀ j < nBins,
      ((StftToImage.inverse_transform bands inCh nBins x b t).getD c
          []).getD j 0 =
        ((List.zip bands (x b t)).map
          (fun p => StftToImage.bandContrib p.1 p.2 c j)).sum) :=
  inverse_transform_closed_form bands inCh nBins x b t

/-! ### C5: the gather-weight-scatter round trip with identity
projections -/

/-- Helper: a dot product with an all-zero weight row vanishes. -/
theorem zipWith_mul_sum_zero (ws v : List ℚ) (h : ∀ w ∈ ws, w = 0) :
    (List.zipWith (fun w x => w * x) ws v).sum = 0 := by
  induction ws generalizing v with
  | nil => simp
  | cons a tl ih =>
    cases v with
    | nil => simp
    | cons b vtl =>
      rw [List.zipWith_cons_cons, List.sum_cons,
        h a (List.mem_cons_self a tl), zero_mul, zero_add]
      exact ih vtl (fun w hw => h w (List.mem_cons_of_mem _ hw))

/-- Helper: a dot product with the `i`-th one-hot row picks out the
`i`-th entry. -/
theorem dot_onehot (v : List ℚ) (i : ℕ) (hi : i < v.length) :
    (List.zipWith (fun w x => w * x)
      ((List.range v.length).map (fun j => if i = j then (1 : ℚ) else 0))
      v).sum = v.getD i 0 := by
  induction v generalizing i with
  | nil => simp at hi
  | cons a tl ih =>
    rw [List.length_cons, List.range_succ_eq_map, List.map_cons, List.map_map]
    cases i with
    | zero =>
      rw [if_pos rfl, List.zipWith_cons_cons, List.sum_cons, one_mul]
      have hz : (List.zipWith (fun w x => w * x)
          ((List.range tl.length).map
            ((fun j => if 0 = j then (1 : ℚ) else 0) ∘ Nat.succ)) tl).sum = 0 := by
        apply zipWith_mul_sum_zero
        intro w hw
        obtain ⟨j, _, rfl⟩ := List.mem_map.mp hw
        simp [Function.comp]
      rw [hz, add_zero]
      rfl
    | succ k =>
      rw [if_neg (by omega), List.zipWith_cons_cons, List.sum_cons, zero_mul,
        zero_add]
      have hcomp : ((fun j => if k + 1 = j then (1 : ℚ) else 0) ∘ Nat.succ) =
          fun j => if k = j then (1 : ℚ) else 0 := by
        funext j
        simp [Function.comp, Nat.succ_eq_add_one]
      rw [hcomp, ih k (by simpa using hi)]
      rfl

/-- Helper: the identity linear layer is the identity on vectors of its
feature count. -/
theorem Linear_idn_apply (n : ℕ) (v : List ℚ) (h : v.length = n) :
    (Linear.idn n).apply v = v := by
  subst h
  unfold Linear.idn Linear.apply
  refine List.ext_getElem ?_ ?_
  · rw [List.length_zipWith, List.length_map, List.length_range,
      List.length_replicate, Nat.min_self]
  · intro k h1 h2
    rw [List.getElem_zipWith, List.getElem_map, List.getElem_range,
      List.getElem_replicate, add_zero, dot_onehot v k h2,
      List.getD_eq_getElem _ _ h2]

/-- Helper: the flattened gather of one band over `C` channels has
width `C * len(idxes)`. -/
theorem gathered_length (bd : StftToImage.Band) (xs : List (List ℚ)) (C : ℕ)
    (hxs : xs.length = C) :
    ((xs.map (fun ch => (StftToImage.nonzeroIdx bd.row).map
        (fun j => ch.getD j 0 * bd.row.getD j 0))).flatten).length =
      C * (StftToImage.nonzeroIdx bd.row).length := by
  rw [List.length_flatten, List.map_map]
  have hc : (List.length ∘ fun ch : List ℚ => (StftToImage.nonzeroIdx bd.row).map
      (fun j => ch.getD j 0 * bd.row.getD j 0)) =
      fun _ : List ℚ => (StftToImage.nonzeroIdx bd.row).length := by
    funext ch
    simp [Function.comp]
  rw [hc, List.map_const', List.sum_replicate, smul_eq_mul, hxs]

/-- Helper: with the identity compress projection, `transform`'s band
output is exactly the weighted gather, flattened channel-major. -/
theorem transformBand_idn (bd : StftToImage.Band) (xs : List (List ℚ)) (C : ℕ)
    (hxs : xs.length = C)
    (hnet : bd.net = Linear.idn (C * (StftToImage.nonzeroIdx bd.row).length)) :
    StftToImage.transformBand bd xs =
      (xs.map (fun ch => (StftToImage.nonzeroIdx bd.row).map
        (fun j => ch.getD j 0 * bd.row.getD j 0))).flatten := by
  unfold StftToImage.transformBand
  rw [hnet]
  exact Linear_idn_apply _ _ (gathered_length bd xs C hxs)

/-- Helper: the channel chunks of a flattened uniform-width list of
rows recover the rows. -/
theorem flatten_chunk (xs : List (List ℚ)) (q c : ℕ)
    (hall : ∀ l ∈ xs, l.length = q) (hc : c < xs.length) :
    StftToImage.chunkOf xs.flatten q c = xs.getD c [] := by
  induction xs generalizing c with
  | nil => simp at hc
  | cons hd tl ih =>
    cases c with
    | zero =>
      unfold StftToImage.chunkOf
      rw [Nat.zero_mul, List.drop_zero, List.flatten_cons,
        ← hall hd (List.mem_cons_self hd tl)]
      show List.take hd.length (hd ++ tl.flatten) = hd
      exact List.take_left _ _
    | succ c2 =>
      show StftToImage.chunkOf (hd :: tl).flatten q (c2 + 1) = tl.getD c2 []
      unfold StftToImage.chunkOf
      rw [List.flatten_cons,
        show (c2 + 1) * q = hd.length + c2 * q by
          rw [hall hd (List.mem_cons_self hd tl)]; ring,
        List.drop_append]
      exact ih c2 (fun l hl => hall l (List.mem_cons_of_mem _ hl))
        (by simpa using hc)

/-- Helper: membership in a band's nonzero index list. -/
theorem mem_nonzeroIdx (row : List ℚ) (j : ℕ) :
    j ∈ StftToImage.nonzeroIdx row ↔ j < row.length ∧ row.getD j 0 ≠ 0 := by
  unfold StftToImage.nonzeroIdx
  rw [List.mem_filter, List.mem_range]
  simp

/-- Helper: a band's nonzero index list has no duplicates. -/
theorem nonzeroIdx_nodup (row : List ℚ) : (StftToImage.nonzeroIdx row).Nodup :=
  (List.nodup_range _).filter _

/-- Helper: scattering the pairs `(i, g i)` over a duplicate-free index
list delivers `g j` at `j` when `j` is listed and nothing otherwise. -/
theorem zip_map_filter_sum (idxes : List ℕ) (g : ℕ → ℚ) (j : ℕ)
    (hnd : idxes.Nodup) :
    (((idxes.zip (idxes.map g)).filter (fun pr => pr.1 == j)).map
      Prod.snd).sum = if j ∈ idxes then g j else 0 := by
  have hzip : idxes.zip (idxes.map g) = idxes.map (fun a => (a, g a)) := by
    have hz := List.zip_map' id g idxes
    simpa only [List.map_id, id_eq] using hz
  rw [hzip, List.filter_map]
  have hpred : ((fun pr : ℕ × ℚ => pr.1 == j) ∘ fun a => (a, g a)) =
      fun a => decide (a = j) := by
    funext a
    by_cases h : a = j <;> simp [h]
  rw [hpred, List.filter_eq]
  by_cases hmem : j ∈ idxes
  · rw [List.count_eq_one_of_mem hnd hmem, if_pos hmem]
    simp
  · rw [List.count_eq_zero_of_not_mem hmem, if_neg hmem]
    simp

/-- Helper: with identity projections, band `bd`'s round-trip
contribution at channel `c`, bin `j` is the weighted input
`x[c][j] * w[j]` (zero weight for bins outside the band). -/
theorem bandContrib_idn (bd : StftToImage.Band) (xs : List (List ℚ))
    (C c j : ℕ) (hxs : xs.length = C) (hc : c < C) (hjlen : j < bd.row.length)
    (hnet : bd.net = Linear.idn (C * (StftToImage.nonzeroIdx bd.row).length))
    (hinv : bd.invNet = Linear.idn (C * (StftToImage.nonzeroIdx bd.row).length)) :
    StftToImage.bandContrib bd (StftToImage.transformBand bd xs) c j =
      (xs.getD c []).getD j 0 * bd.row.getD j 0 := by
  unfold StftToImage.bandContrib
  rw [transformBand_idn bd xs C hxs hnet, hinv,
    Linear_idn_apply _ _ (gathered_length bd xs C hxs)]
  rw [flatten_chunk _ _ _
    (fun l hl => by
      obtain ⟨ch, _, rfl⟩ := List.mem_map.mp hl
      exact List.length_map _ _)
    (by rw [List.length_map, hxs]; exact hc)]
  rw [List.getD_eq_getElem (xs.map _) []
    (by rw [List.length_map, hxs]; exact hc), List.getElem_map]
  rw [zip_map_filter_sum _ _ _ (nonzeroIdx_nodup bd.row)]
  by_cases hmem : j ∈ StftToImage.nonzeroIdx bd.row
  · rw [if_pos hmem, List.getD_eq_getElem xs [] (by rw [hxs]; exact hc)]
  · rw [if_neg hmem]
    have hz : bd.row.getD j 0 = 0 := by
      by_contra hne
      exact hmem ((mem_nonzeroIdx _ _).mpr ⟨hjlen, hne⟩)
    rw [hz, mul_zero]

/-- **C5** — with every per-band compress and expand projection the
identity map, `inverse_transform (transform x) = x` exactly: the
gather-weight-scatter routing is a lossless round trip, because the
(augmented) band weights form an exact partition of unity at every
bin. -/
theorem c5_identity_roundtrip (bands : List StftToImage.Band) (C nBins : ℕ)
    (x : ℕ → ℕ → List (List ℚ))
    (hrow : ∀ bd ∈ bands, bd.row.length = nBins)
    (hnets : ∀ bd ∈ bands,
      bd.net = Linear.idn (C * (StftToImage.nonzeroIdx bd.row).length) ∧
      bd.invNet = Linear.idn (C * (StftToImage.nonzeroIdx bd.row).length))
    (hpart : ∀ j < nBins,
      StftToImage.colSum (bands.map (fun bd => bd.row)) j = 1)
    (hx : ∀ b t, (x b t).length = C ∧ ∀ ch ∈ x b t, ch.length = nBins) :
    StftToImage.inverse_transform bands C nBins
      (StftToImage.transform bands x) = x := by
  funext b t
  obtain ⟨hxc, hxr⟩ := hx b t
  obtain ⟨hlen, hrl, hval⟩ :=
    inverse_transform_closed_form bands C nBins (StftToImage.transform bands x) b t
  refine List.ext_getElem (by rw [hlen, hxc]) ?_
  intro c h1 h2
  have hc : c < C := by rwa [hlen] at h1
  have e1 : (StftToImage.inverse_transform bands C nBins
      (StftToImage.transform bands x) b t).getD c [] =
      (StftToImage.inverse_transform bands C nBins
        (StftToImage.transform bands x) b t)[c] :=
    List.getD_eq_getElem _ [] h1
  refine List.ext_getElem ?_ ?_
  · rw [← e1, hrl c hc, hxr _ (List.getElem_mem h2)]
  · intro j hj1 hj2
    have hj : j < nBins := by
      rw [← e1, hrl c hc] at hj1
      exact hj1
    have hvj := hval c hc j hj
    rw [e1] at hvj
    rw [← List.getD_eq_getElem _ 0 hj1, hvj]
    have hslice : StftToImage.transform bands x b t =
        bands.map (fun bd => StftToImage.transformBand bd (x b t)) := rfl
    rw [hslice]
    have hzipb : bands.zip (bands.map
        (fun bd => StftToImage.transformBand bd (x b t))) =
        bands.map (fun bd => (bd, StftToImage.transformBand bd (x b t))) := by
      have hz := List.zip_map' id
        (fun bd => StftToImage.transformBand bd (x b t)) bands
      simpa only [List.map_id, id_eq] using hz
    rw [hzipb, List.map_map]
    have hterm : ∀ bd ∈ bands,
        ((fun p : StftToImage.Band × List ℚ =>
            StftToImage.bandContrib p.1 p.2 c j) ∘
          fun bd => (bd, StftToImage.transformBand bd (x b t))) bd =
        ((x b t).getD c []).getD j 0 * bd.row.getD j 0 := by
      intro bd hbd
      obtain ⟨hnet, hinv⟩ := hnets bd hbd
      exact bandContrib_idn bd (x b t) C c j hxc hc
        (by rw [hrow bd hbd]; exact hj) hnet hinv
    rw [List.map_congr_left hterm, List.sum_map_mul_left]
    have hcol : (bands.map (fun bd => bd.row.getD j 0)).sum = 1 := by
      have hp := hpart j hj
      unfold StftToImage.colSum at hp
      rw [List.map_map] at hp
      simpa [Function.comp] using hp
    rw [hcol, mul_one, List.getD_eq_getElem (x b t) [] h2,
      List.getD_eq_getElem _ 0 hj2]

unseal Rat.add Rat.sub Rat.mul Rat.inv in
set_option maxRecDepth 100000 in
/-- Witness for C5: a single band covering the single bin with weight
1, identity projections, one channel, constant input `[[5]]`. -/
theorem c5_identity_roundtrip_witness :
    ((∀ bd ∈ [StftToImage.Band.mk [1] (Linear.idn 1) (Linear.idn 1)],
        bd.row.length = 1) ∧
     (∀ bd ∈ [StftToImage.Band.mk [1] (Linear.idn 1) (Linear.idn 1)],
        bd.net = Linear.idn (1 * (StftToImage.nonzeroIdx bd.row).length) ∧
        bd.invNet = Linear.idn (1 * (StftToImage.nonzeroIdx bd.row).length)) ∧
     (∀ j < 1, StftToImage.colSum
        ([StftToImage.Band.mk [1] (Linear.idn 1) (Linear.idn 1)].map
          (fun bd => bd.row)) j = 1)) ∧
    StftToImage.inverse_transform
        [StftToImage.Band.mk [1] (Linear.idn 1) (Linear.idn 1)] 1 1
        (StftToImage.transform
          [StftToImage.Band.mk [1] (Linear.idn 1) (Linear.idn 1)]
          (fun _ _ => [[5]])) =
      fun _ _ => [[5]] :=
  ⟨⟨by decide, by decide, by decide⟩,
   c5_identity_roundtrip [StftToImage.Band.mk [1] (Linear.idn 1) (Linear.idn 1)]
     1 1 (fun _ _ => [[5]]) (by decide) (by decide) (by decide)
     (fun _ _ => ⟨rfl, fun ch hch => by
       simp only [List.mem_singleton] at hch
       subst hch
       rfl⟩)⟩

end MiniMss
